import Mathlib

/-!
Verification of the interval-scheduling routines of this repository
(`basic-datastructure/interval_scheduling/meeting_rooms2.py` and
`meeting_rooms_252.py`).

Intervals are pairs `(start, end) : Int × Int`, written in the source as
two-element lists `[s, e]`.  Python's stable `list.sort(key=lambda x: x[0])`
is embedded as insertion sort by the start component (insertion sort with a
non-strict `≤` on keys is stable, so it yields the same list as Python's
stable sort).  The `heapq` min-heap of end times is embedded as a list kept
in ascending order: `heappush` is ordered insertion, `heap[0]` is the head
(the minimum), `heappop` drops the head.  The two-pointer sweep loop, which
in Python can raise `IndexError` on `end[j]`, is embedded as a function
into `Option Int`: `none` is the out-of-bounds access, `some r` a normal
return.  The recursion is driven by a fuel argument that starts strictly
above the loop's step count (each iteration advances `i` or `j`), so the
fuel never runs out before the loop exits or crashes.
-/

namespace MeetingRooms

/-- Ordering of intervals used by `intervals.sort(key=lambda x: x[0])`:
compare by start only. -/
def startLE (a b : Int × Int) : Prop := a.1 ≤ b.1

instance : DecidableRel startLE := fun a b => inferInstanceAs (Decidable (a.1 ≤ b.1))

instance : IsTotal (Int × Int) startLE := ⟨fun a b => le_total a.1 b.1⟩

instance : IsTrans (Int × Int) startLE := ⟨fun _ _ _ => le_trans⟩

/-- Python's stable in-place `intervals.sort(key=lambda x: x[0])`, as the
list it produces: a stable sort by start. -/
def sortByStart (I : List (Int × Int)) : List (Int × Int) :=
  List.insertionSort startLE I

/-- Python's `sorted(...)` on a list of integers. -/
def sortInts (l : List Int) : List Int :=
  List.insertionSort (· ≤ ·) l

/-- The inner `for i in range(len(rooms))` loop of `minMeetingRoomsBruteForce`:
replace the first room whose stored end time is `≤ start` by the new end
time; if no room qualifies, append a new room (`rooms.append(end)`). -/
def fitRoom (s e : Int) : List Int → List Int
  | [] => [e]
  | r :: rs => if r ≤ s then e :: rs else r :: fitRoom s e rs

/-- `minMeetingRoomsBruteForce` from `meeting_rooms2.py` (lines 68-83):
sort by start, first-fit each meeting into the room list, answer is the
number of rooms. -/
def minMeetingRoomsBruteForce (I : List (Int × Int)) : Nat :=
  match I with
  | [] => 0
  | _ => ((sortByStart I).foldl (fun rooms iv => fitRoom iv.1 iv.2 rooms) []).length

/-- `heapq.heappush(heap, x)` on a heap represented as an ascending list. -/
def heapPush (x : Int) (h : List Int) : List Int :=
  List.orderedInsert (· ≤ ·) x h

/-- One iteration of the loop of `minMeetingRoomHeap`:
`if heap and heap[0] <= start: heappop(heap)` then `heappush(heap, end)`. -/
def heapStep (h : List Int) (iv : Int × Int) : List Int :=
  match h with
  | [] => heapPush iv.2 []
  | m :: rest => if m ≤ iv.1 then heapPush iv.2 rest else heapPush iv.2 (m :: rest)

/-- `minMeetingRoomHeap` from `meeting_rooms2.py` (lines 107-116). -/
def minMeetingRoomHeap (I : List (Int × Int)) : Nat :=
  match I with
  | [] => 0
  | _ => ((sortByStart I).foldl heapStep []).length

/-- The `while i < len(start)` loop of `minMeetingRooms` (sweep line),
with explicit indices `i` into the sorted starts `S` and `j` into the
sorted ends `E`.  Accessing `E[j]` with `j ≥ len E` is Python's
`IndexError`, embedded as `none`.  `fuel` only drives the recursion: every
iteration increments `i` or `j`, so with initial fuel above
`len S + len E` the fuel is never exhausted before `i` reaches `len S`.  -/
def sweepAux (S E : List Int) : Nat → Nat → Nat → Int → Int → Option Int
  | 0, i, _, res, _ => if i < S.length then none else some res
  | fuel + 1, i, j, res, count =>
    if i < S.length then
      if j < E.length then
        if S.getD i 0 < E.getD j 0 then
          sweepAux S E fuel (i + 1) j (max res (count + 1)) (count + 1)
        else
          sweepAux S E fuel i (j + 1) (max res (count - 1)) (count - 1)
      else none
    else some res

/-- `minMeetingRooms` from `meeting_rooms2.py` (lines 137-153): the
two-pointer sweep over independently sorted start and end values. -/
def minMeetingRooms (I : List (Int × Int)) : Option Int :=
  let S := sortInts (I.map Prod.fst)
  let E := sortInts (I.map Prod.snd)
  sweepAux S E (S.length + E.length + 1) 0 0 0 0

/-- The `for i in range(1, len(intervals))` loop of `canAttendMeetings`:
walking adjacent pairs of the (sorted) list, fail when
`curr_meetings[0] < prev_meetings[1]`. -/
def adjOk : List (Int × Int) → Bool
  | a :: b :: rest => if b.1 < a.2 then false else adjOk (b :: rest)
  | _ => true

/-- `canAttendMeetings` from `meeting_rooms_252.py` (lines 43-52):
sort by start, then check adjacent pairs. -/
def canAttendMeetings (I : List (Int × Int)) : Bool :=
  adjOk (sortByStart I)

/-- The per-pair test of `canAttendMeetingsBruteForce`: the pair does NOT
overlap when `e1 <= s2 or e2 <= s1`. -/
def noOverlap (a b : Int × Int) : Bool :=
  decide (a.2 ≤ b.1 ∨ b.2 ≤ a.1)

/-- `canAttendMeetingsBruteForce` from `meeting_rooms_252.py` (lines 34-38):
the double loop over all pairs `i < j`, returning `False` at the first
overlapping pair. -/
def canAttendMeetingsBruteForce : List (Int × Int) → Bool
  | [] => true
  | a :: rest => rest.all (fun b => noOverlap a b) && canAttendMeetingsBruteForce rest

/-- The caller's list after `minMeetingRoomsBruteForce` returns: the
function runs `intervals.sort(key=lambda x: x[0])` on the caller's list
in place (after the early return on an empty list), so the caller is left
with the stable-sorted-by-start permutation of the data. -/
def minMeetingRoomsBruteForceCallerAfter (I : List (Int × Int)) : List (Int × Int) :=
  match I with
  | [] => I
  | _ => sortByStart I

/-- The caller's list after `minMeetingRoomHeap` returns: it also runs
`intervals.sort(key=lambda x: x[0])` in place after the empty check. -/
def minMeetingRoomHeapCallerAfter (I : List (Int × Int)) : List (Int × Int) :=
  match I with
  | [] => I
  | _ => sortByStart I

/-- The caller's list after `canAttendMeetings` returns: it runs
`intervals.sort(key=lambda x: x[0])` in place unconditionally. -/
def canAttendMeetingsCallerAfter (I : List (Int × Int)) : List (Int × Int) :=
  sortByStart I

/-- The caller's list after `minMeetingRooms` returns: the sweep only reads
the list through the copies `sorted([item[0] ...])` and `sorted([item[1] ...])`,
leaving the caller's list untouched. -/
def minMeetingRoomsCallerAfter (I : List (Int × Int)) : List (Int × Int) := I

/-- The caller's list after `canAttendMeetingsBruteForce` returns: the double
loop only indexes into the list and never writes to it. -/
def canAttendMeetingsBruteForceCallerAfter (I : List (Int × Int)) : List (Int × Int) := I

/-- Spec-side notion: interval `iv` is active at time `t` when
`start ≤ t < end` (half-open semantics; the boundary-touch tie-break of the
spec). -/
def activeAt (iv : Int × Int) (t : Int) : Bool :=
  decide (iv.1 ≤ t ∧ t < iv.2)

/-- Spec-side notion: the number of intervals of `I` active at time `t`. -/
def countAt (I : List (Int × Int)) (t : Int) : Nat :=
  (I.filter (fun iv => activeAt iv t)).length

/-- Spec-side notion, "peak concurrent usage": the maximum of `countAt`
over all start times of `I` (0 for the empty sequence).  The lemma
`countAt_le_peakUsage` below shows this is the maximum over ALL times `t`,
since `countAt` can only peak at a start. -/
def peakUsage (I : List (Int × Int)) : Nat :=
  (I.map (fun iv => countAt I iv.1)).foldr max 0

-- Sanity checks against the printed examples of the source files.
example : minMeetingRoomsBruteForce [(0, 30), (5, 10), (15, 20)] = 2 := by decide
example : minMeetingRoomsBruteForce [(7, 10), (2, 4)] = 1 := by decide
example : minMeetingRoomHeap [(0, 30), (5, 10), (15, 20)] = 2 := by decide
example : minMeetingRoomHeap [(7, 10), (2, 4)] = 1 := by decide
example : minMeetingRooms [(0, 30), (5, 10), (15, 20)] = some 2 := by decide
example : minMeetingRooms [(7, 10), (2, 4)] = some 1 := by decide
example : canAttendMeetings [(0, 30), (5, 10), (15, 20)] = false := by decide
example : canAttendMeetings [(7, 10), (2, 4)] = true := by decide
example : canAttendMeetingsBruteForce [(0, 30), (5, 10), (15, 20)] = false := by decide
example : canAttendMeetingsBruteForce [(7, 10), (2, 4)] = true := by decide
example : peakUsage [(0, 30), (5, 10), (15, 20)] = 2 := by decide

/-! ### Counting helpers -/

/-- Number of elements of `l` strictly above `u`. -/
def cntGT (u : Int) (l : List Int) : Nat :=
  (l.filter (fun x => u < x)).length

/-- Number of elements of `l` at most `u`. -/
def cntLE (u : Int) (l : List Int) : Nat :=
  (l.filter (fun x => x ≤ u)).length

lemma cntGT_cons (u x : Int) (l : List Int) :
    cntGT u (x :: l) = (if u < x then 1 else 0) + cntGT u l := by
  simp only [cntGT, List.filter_cons, decide_eq_true_eq]
  by_cases h : u < x <;> simp [h, Nat.add_comm]

lemma cntGT_append (u : Int) (l₁ l₂ : List Int) :
    cntGT u (l₁ ++ l₂) = cntGT u l₁ + cntGT u l₂ := by
  simp [cntGT, List.filter_append]

lemma cntGT_perm (u : Int) {l₁ l₂ : List Int} (h : l₁.Perm l₂) :
    cntGT u l₁ = cntGT u l₂ :=
  (h.filter _).length_eq

lemma cntLE_cons (u x : Int) (l : List Int) :
    cntLE u (x :: l) = (if x ≤ u then 1 else 0) + cntLE u l := by
  simp only [cntLE, List.filter_cons, decide_eq_true_eq]
  by_cases h : x ≤ u <;> simp [h, Nat.add_comm]

lemma cntLE_add_cntGT (u : Int) (l : List Int) :
    cntLE u l + cntGT u l = l.length := by
  induction l with
  | nil => rfl
  | cons x l ih =>
    rw [cntLE_cons, cntGT_cons, List.length_cons]
    by_cases h : x ≤ u
    · rw [if_pos h, if_neg (not_lt.mpr h)]
      omega
    · rw [if_neg h, if_pos (not_le.mp h)]
      omega

lemma cntGT_le_length (u : Int) (l : List Int) : cntGT u l ≤ l.length :=
  List.length_filter_le _ _

lemma cntGT_eq_length (u : Int) {l : List Int} (h : ∀ x ∈ l, u < x) :
    cntGT u l = l.length := by
  unfold cntGT
  rw [List.filter_eq_self.mpr (fun x hx => by simpa using h x hx)]

lemma exists_le_iff_cntLE_pos (u : Int) (l : List Int) :
    (∃ x ∈ l, x ≤ u) ↔ 0 < cntLE u l := by
  induction l with
  | nil => simp [cntLE]
  | cons x l ih =>
    rw [cntLE_cons]
    by_cases h : x ≤ u
    · simp [h]
    · simp only [h, if_false, Nat.zero_add]
      rw [← ih]
      simp only [List.mem_cons]
      constructor
      · rintro ⟨y, hy | hy, hyu⟩
        · exact absurd (hy ▸ hyu) h
        · exact ⟨y, hy, hyu⟩
      · rintro ⟨y, hy, hyu⟩
        exact ⟨y, Or.inr hy, hyu⟩

/-! ### Heap step lemmas -/

lemma heapPush_perm (x : Int) (h : List Int) : (heapPush x h).Perm (x :: h) :=
  List.perm_orderedInsert _ x h

lemma heapPush_length (x : Int) (h : List Int) :
    (heapPush x h).length = h.length + 1 :=
  List.orderedInsert_length _ h x

lemma heapPush_sorted (x : Int) {h : List Int} (hs : h.Sorted (· ≤ ·)) :
    (heapPush x h).Sorted (· ≤ ·) :=
  List.Sorted.orderedInsert x h hs

lemma heapStep_sorted {h : List Int} (hs : h.Sorted (· ≤ ·)) (iv : Int × Int) :
    (heapStep h iv).Sorted (· ≤ ·) := by
  cases h with
  | nil => exact heapPush_sorted _ hs
  | cons m rest =>
    unfold heapStep
    by_cases hm : m ≤ iv.1
    · simp only [hm, if_true]
      exact heapPush_sorted _ ((List.sorted_cons.mp hs).2)
    · simp only [hm, if_false]
      exact heapPush_sorted _ hs

lemma heapStep_length_ge (h : List Int) (iv : Int × Int) :
    h.length ≤ (heapStep h iv).length := by
  cases h with
  | nil => simp [heapStep, heapPush_length]
  | cons m rest =>
    unfold heapStep
    by_cases hm : m ≤ iv.1 <;> simp [hm, heapPush_length]

lemma heapFold_length_mono (L : List (Int × Int)) :
    ∀ h : List Int, h.length ≤ (L.foldl heapStep h).length := by
  induction L with
  | nil => intro h; simp
  | cons iv L ih =>
    intro h
    exact le_trans (heapStep_length_ge h iv) (ih (heapStep h iv))

lemma heapFold_sorted (L : List (Int × Int)) :
    ∀ {h : List Int}, h.Sorted (· ≤ ·) → (L.foldl heapStep h).Sorted (· ≤ ·) := by
  induction L with
  | nil => intro h hs; simpa using hs
  | cons iv L ih => intro h hs; exact ih (heapStep_sorted hs iv)

/-! ### First fit lemmas -/

lemma fitRoom_of_forall {s : Int} (e : Int) {R : List Int}
    (h : ∀ r ∈ R, ¬ r ≤ s) : fitRoom s e R = R ++ [e] := by
  induction R with
  | nil => rfl
  | cons r rs ih =>
    have hr : ¬ r ≤ s := h r (List.mem_cons_self _ _)
    simp only [fitRoom, hr, if_false, List.cons_append, List.cons.injEq, true_and]
    exact ih (fun r' hr' => h r' (List.mem_cons_of_mem _ hr'))

lemma fitRoom_split {s : Int} (e : Int) {R : List Int}
    (h : ∃ r ∈ R, r ≤ s) :
    ∃ R₁ r₀ R₂, R = R₁ ++ r₀ :: R₂ ∧ r₀ ≤ s ∧ fitRoom s e R = R₁ ++ e :: R₂ := by
  induction R with
  | nil => simp at h
  | cons r rs ih =>
    by_cases hr : r ≤ s
    · exact ⟨[], r, rs, rfl, hr, by simp [fitRoom, hr]⟩
    · obtain ⟨x, hx, hxu⟩ := h
      rcases List.mem_cons.mp hx with hxr | hxr
      · exact absurd (hxr ▸ hxu) hr
      · obtain ⟨R₁, r₀, R₂, hR, hr₀, hfit⟩ := ih ⟨x, hxr, hxu⟩
        refine ⟨r :: R₁, r₀, R₂, by rw [List.cons_append, hR], hr₀, ?_⟩
        simp only [fitRoom, hr, if_false, List.cons_append, List.cons.injEq, true_and]
        exact hfit

/-! ### Brute force and heap agree (first fit = min-heap) -/

lemma brute_heap_core :
    ∀ (L : List (Int × Int)) (R H : List Int) (s₀ : Int),
      List.Sorted startLE L → (∀ iv ∈ L, s₀ ≤ iv.1) →
      H.Sorted (· ≤ ·) →
      R.length = H.length →
      (∀ u, s₀ ≤ u → cntGT u R = cntGT u H) →
      (L.foldl (fun rooms iv => fitRoom iv.1 iv.2 rooms) R).length
        = (L.foldl heapStep H).length := by
  intro L
  induction L with
  | nil =>
    intro R H s₀ _ _ _ hlen _
    simpa using hlen
  | cons iv L ih =>
    intro R H s₀ hsor hbound hHs hlen hcnt
    obtain ⟨s, e⟩ := iv
    have hs0 : s₀ ≤ s := hbound (s, e) (List.mem_cons_self _ _)
    have hsorL : List.Sorted startLE L := (List.sorted_cons.mp hsor).2
    have hboundL : ∀ iv' ∈ L, s ≤ iv'.1 := fun iv' h' =>
      (List.sorted_cons.mp hsor).1 iv' h'
    have hGT : cntGT s R = cntGT s H := hcnt s hs0
    have hLE : cntLE s R = cntLE s H := by
      have h1 := cntLE_add_cntGT s R
      have h2 := cntLE_add_cntGT s H
      omega
    simp only [List.foldl_cons]
    by_cases hfree : ∃ r ∈ R, r ≤ s
    · -- some room is free: the brute force replaces the first free room,
      -- the heap pops its minimum; both then push `e`.
      have hHfree : ∃ x ∈ H, x ≤ s := by
        rw [exists_le_iff_cntLE_pos] at hfree ⊢
        omega
      obtain ⟨m, rest, rfl⟩ : ∃ m rest, H = m :: rest := by
        cases H with
        | nil => simp at hHfree
        | cons m rest => exact ⟨m, rest, rfl⟩
      have hm : m ≤ s := by
        obtain ⟨x, hx, hxu⟩ := hHfree
        rcases List.mem_cons.mp hx with hxm | hxm
        · exact hxm ▸ hxu
        · exact le_trans (List.rel_of_sorted_cons hHs x hxm) hxu
      have hstep : heapStep (m :: rest) (s, e) = heapPush e rest := by
        simp [heapStep, hm]
      obtain ⟨R₁, r₀, R₂, hR, hr₀, hfit⟩ := fitRoom_split e hfree
      have hrest : rest.Sorted (· ≤ ·) := (List.sorted_cons.mp hHs).2
      rw [hstep, hfit]
      refine ih (R₁ ++ e :: R₂) (heapPush e rest) s hsorL hboundL
        (heapPush_sorted _ hrest) ?_ ?_
      · have h1 : R.length = R₁.length + R₂.length + 1 := by
          rw [hR]; simp; omega
        have h2 : (m :: rest).length = rest.length + 1 := rfl
        simp only [heapPush_length, List.length_append, List.length_cons]
        omega
      · intro u hu
        have hscnt := hcnt u (le_trans hs0 hu)
        have hRsplit : cntGT u R = cntGT u R₁ + (if u < r₀ then 1 else 0) + cntGT u R₂ := by
          rw [hR, cntGT_append, cntGT_cons]; omega
        have hr₀u : ¬ u < r₀ := not_lt.mpr (le_trans hr₀ hu)
        have hmu : ¬ u < m := not_lt.mpr (le_trans hm hu)
        have hHsplit : cntGT u (m :: rest) = cntGT u rest := by
          rw [cntGT_cons]; simp [hmu]
        have hpush : cntGT u (heapPush e rest) = (if u < e then 1 else 0) + cntGT u rest := by
          rw [cntGT_perm u (heapPush_perm e rest), cntGT_cons]
        rw [cntGT_append, cntGT_cons, hpush]
        simp only [hr₀u, if_false] at hRsplit
        omega
    · -- no room is free: both allocate a new room for `e`.
      have hnone : ∀ r ∈ R, ¬ r ≤ s := by
        intro r hr hrs
        exact hfree ⟨r, hr, hrs⟩
      have hHnone : ¬ ∃ x ∈ H, x ≤ s := by
        rw [exists_le_iff_cntLE_pos] at hfree ⊢
        omega
      have hstep : heapStep H (s, e) = heapPush e H := by
        cases H with
        | nil => rfl
        | cons m rest =>
          have hm : ¬ m ≤ s := fun hm => hHnone ⟨m, List.mem_cons_self _ _, hm⟩
          simp [heapStep, hm]
      rw [hstep, fitRoom_of_forall e hnone]
      refine ih (R ++ [e]) (heapPush e H) s hsorL hboundL
        (heapPush_sorted _ hHs) ?_ ?_
      · simp only [heapPush_length, List.length_append, List.length_singleton]
        omega
      · intro u hu
        have hscnt := hcnt u (le_trans hs0 hu)
        have h1 : cntGT u (R ++ [e]) = cntGT u R + ((if u < e then 1 else 0) + cntGT u []) := by
          rw [cntGT_append, cntGT_cons]
        have h2 : cntGT u (heapPush e H) = (if u < e then 1 else 0) + cntGT u H := by
          rw [cntGT_perm u (heapPush_perm e H), cntGT_cons]
        have h0 : cntGT u [] = 0 := rfl
        rw [h1, h2]
        omega

/-- The first-fit brute force and the heap variant agree on every input
(they sort the same way, then allocate the same number of rooms). -/
lemma brute_eq_heap (I : List (Int × Int)) :
    minMeetingRoomsBruteForce I = minMeetingRoomHeap I := by
  cases I with
  | nil => rfl
  | cons iv I' =>
    show ((sortByStart (iv :: I')).foldl (fun rooms iv => fitRoom iv.1 iv.2 rooms) []).length
        = ((sortByStart (iv :: I')).foldl heapStep []).length
    have hperm := List.perm_insertionSort startLE (iv :: I')
    have hne : sortByStart (iv :: I') ≠ [] := by
      intro h
      have hlen : (sortByStart (iv :: I')).length = (iv :: I').length := hperm.length_eq
      rw [h] at hlen
      simp at hlen
    obtain ⟨l₀, L', hL⟩ := List.exists_cons_of_ne_nil hne
    have hsor : List.Sorted startLE (sortByStart (iv :: I')) :=
      List.sorted_insertionSort startLE (iv :: I')
    rw [hL]
    rw [hL] at hsor
    refine brute_heap_core (l₀ :: L') [] [] l₀.1 hsor ?_ (by simp) rfl
      (fun u _ => rfl)
    intro iv' hiv'
    rcases List.mem_cons.mp hiv' with h | h
    · exact le_of_eq (congrArg Prod.fst h.symm)
    · exact List.rel_of_sorted_cons hsor iv' h

/-! ### countAt and peakUsage helpers -/

lemma countAt_cons (iv : Int × Int) (I : List (Int × Int)) (t : Int) :
    countAt (iv :: I) t = (if iv.1 ≤ t ∧ t < iv.2 then 1 else 0) + countAt I t := by
  simp only [countAt, List.filter_cons, activeAt, decide_eq_true_eq]
  by_cases h : iv.1 ≤ t ∧ t < iv.2 <;> simp [h, Nat.add_comm]

lemma countAt_append (I₁ I₂ : List (Int × Int)) (t : Int) :
    countAt (I₁ ++ I₂) t = countAt I₁ t + countAt I₂ t := by
  simp [countAt, List.filter_append]

lemma countAt_perm {I J : List (Int × Int)} (h : I.Perm J) (t : Int) :
    countAt I t = countAt J t :=
  (h.filter _).length_eq

lemma countAt_eq_cntGT_ends {I : List (Int × Int)} {t : Int}
    (h : ∀ iv ∈ I, iv.1 ≤ t) :
    countAt I t = cntGT t (I.map Prod.snd) := by
  induction I with
  | nil => rfl
  | cons iv I ih =>
    rw [countAt_cons, List.map_cons, cntGT_cons,
      ih (fun iv' h' => h iv' (List.mem_cons_of_mem _ h'))]
    have h1 : iv.1 ≤ t := h iv (List.mem_cons_self _ _)
    by_cases h2 : t < iv.2
    · rw [if_pos ⟨h1, h2⟩, if_pos h2]
    · rw [if_neg (fun hc => h2 hc.2), if_neg h2]

lemma le_foldr_max {l : List Nat} {x : Nat} (h : x ∈ l) : x ≤ l.foldr max 0 := by
  induction l with
  | nil => simp at h
  | cons y l ih =>
    rcases List.mem_cons.mp h with rfl | h'
    · exact le_max_left _ _
    · exact le_trans (ih h') (le_max_right _ _)

lemma foldr_max_le {l : List Nat} {b : Nat} (h : ∀ x ∈ l, x ≤ b) :
    l.foldr max 0 ≤ b := by
  induction l with
  | nil => exact Nat.zero_le _
  | cons y l ih =>
    exact max_le (h y (List.mem_cons_self _ _))
      (ih (fun x hx => h x (List.mem_cons_of_mem _ hx)))

lemma foldr_max_mem_or_zero (l : List Nat) :
    l.foldr max 0 = 0 ∨ l.foldr max 0 ∈ l := by
  induction l with
  | nil => exact Or.inl rfl
  | cons x l ih =>
    rcases ih with h | h
    · right
      simp only [List.foldr_cons, h, Nat.max_zero]
      exact List.mem_cons_self _ _
    · rcases le_total x (l.foldr max 0) with hle | hle
      · right
        simp only [List.foldr_cons, max_eq_right hle]
        exact List.mem_cons_of_mem _ h
      · right
        simp only [List.foldr_cons, max_eq_left hle]
        exact List.mem_cons_self _ _

lemma foldr_max_perm {l₁ l₂ : List Nat} (h : l₁.Perm l₂) :
    l₁.foldr max 0 = l₂.foldr max 0 := by
  induction h with
  | nil => rfl
  | cons x _ ih => simp only [List.foldr_cons, ih]
  | swap x y l => simp only [List.foldr_cons]; exact max_left_comm _ _ _
  | trans _ _ ih₁ ih₂ => rw [ih₁, ih₂]

lemma countAt_fst_le_peak {I : List (Int × Int)} {iv : Int × Int} (h : iv ∈ I) :
    countAt I iv.1 ≤ peakUsage I :=
  le_foldr_max (List.mem_map.mpr ⟨iv, h, rfl⟩)

lemma peakUsage_perm {I J : List (Int × Int)} (h : I.Perm J) :
    peakUsage I = peakUsage J := by
  unfold peakUsage
  have h2 : I.map (fun iv => countAt I iv.1) = I.map (fun iv => countAt J iv.1) :=
    List.map_congr_left (fun iv _ => countAt_perm h iv.1)
  rw [h2]
  exact foldr_max_perm (h.map _)

lemma length_filter_le_of_imp {α : Type} {p q : α → Bool} :
    ∀ {l : List α}, (∀ a ∈ l, p a = true → q a = true) →
      (l.filter p).length ≤ (l.filter q).length := by
  intro l
  induction l with
  | nil => intro _; exact le_refl _
  | cons a l ih =>
    intro h
    have ih' := ih (fun a' ha' => h a' (List.mem_cons_of_mem _ ha'))
    by_cases hp : p a = true
    · have hq := h a (List.mem_cons_self _ _) hp
      rw [List.filter_cons, List.filter_cons, if_pos hp, if_pos hq,
        List.length_cons, List.length_cons]
      omega
    · rw [List.filter_cons, if_neg hp]
      by_cases hq : q a = true
      · rw [List.filter_cons, if_pos hq, List.length_cons]
        omega
      · rw [List.filter_cons, if_neg hq]
        exact ih'

lemma exists_max_fst {l : List (Int × Int)} (h : l ≠ []) :
    ∃ m ∈ l, ∀ x ∈ l, x.1 ≤ m.1 := by
  induction l with
  | nil => exact absurd rfl h
  | cons a l ih =>
    cases l with
    | nil =>
      refine ⟨a, List.mem_cons_self _ _, fun x hx => ?_⟩
      rcases List.mem_cons.mp hx with rfl | hx'
      · exact le_refl _
      · simp at hx'
    | cons b l' =>
      obtain ⟨m, hm, hmax⟩ := ih (List.cons_ne_nil _ _)
      rcases le_total a.1 m.1 with hle | hle
      · refine ⟨m, List.mem_cons_of_mem _ hm, fun x hx => ?_⟩
        rcases List.mem_cons.mp hx with rfl | hx'
        · exact hle
        · exact hmax x hx'
      · refine ⟨a, List.mem_cons_self _ _, fun x hx => ?_⟩
        rcases List.mem_cons.mp hx with rfl | hx'
        · exact le_refl _
        · exact le_trans (hmax x hx') hle

/-- `countAt` can only peak at a start time: `peakUsage`, the maximum of
`countAt` over the starts, bounds `countAt` at EVERY time `t`. -/
lemma countAt_le_peakUsage (I : List (Int × Int)) (t : Int) :
    countAt I t ≤ peakUsage I := by
  by_cases hzero : countAt I t = 0
  · rw [hzero]; exact Nat.zero_le _
  · have hne : I.filter (fun iv => activeAt iv t) ≠ [] := by
      intro h
      apply hzero
      unfold countAt
      rw [h]
      rfl
    obtain ⟨m, hm, hmax⟩ := exists_max_fst hne
    have hmI : m ∈ I := (List.mem_filter.mp hm).1
    have hmact : m.1 ≤ t ∧ t < m.2 := by
      have := (List.mem_filter.mp hm).2
      simpa [activeAt] using this
    have himp : ∀ iv ∈ I, activeAt iv t = true → activeAt iv m.1 = true := by
      intro iv hiv hact
      have hact' : iv.1 ≤ t ∧ t < iv.2 := by simpa [activeAt] using hact
      have h1 : iv.1 ≤ m.1 := hmax iv (List.mem_filter.mpr ⟨hiv, hact⟩)
      have h2 : m.1 < iv.2 := lt_of_le_of_lt hmact.1 hact'.2
      simp only [activeAt, decide_eq_true_eq]
      exact ⟨h1, h2⟩
    exact le_trans (length_filter_le_of_imp himp) (countAt_fst_le_peak hmI)

lemma countAt_pos_of_mem {I : List (Int × Int)} {iv : Int × Int} (h : iv ∈ I)
    (hact : iv.1 ≤ iv.1 ∧ iv.1 < iv.2) : 1 ≤ countAt I iv.1 := by
  have hmem : iv ∈ I.filter (fun iv' => activeAt iv' iv.1) :=
    List.mem_filter.mpr ⟨h, by simp [activeAt]; exact hact.2⟩
  have : I.filter (fun iv' => activeAt iv' iv.1) ≠ [] := by
    intro hnil
    rw [hnil] at hmem
    simp at hmem
  unfold countAt
  exact Nat.one_le_iff_ne_zero.mpr (fun hlen => this (List.length_eq_zero.mp hlen))

/-- With strictly positive lengths and a non-empty list, the peak is
attained at some time. -/
lemma peak_achieved {I : List (Int × Int)} (hs : ∀ iv ∈ I, iv.1 < iv.2)
    (hne : I ≠ []) : ∃ t, countAt I t = peakUsage I := by
  rcases foldr_max_mem_or_zero (I.map fun iv => countAt I iv.1) with h | h
  · exfalso
    obtain ⟨a, l, rfl⟩ := List.exists_cons_of_ne_nil hne
    have h1 : 1 ≤ countAt (a :: l) a.1 :=
      countAt_pos_of_mem (List.mem_cons_self _ _) ⟨le_refl _, hs a (List.mem_cons_self _ _)⟩
    have h2 : countAt (a :: l) a.1 ≤ peakUsage (a :: l) :=
      countAt_fst_le_peak (List.mem_cons_self _ _)
    have h3 : peakUsage (a :: l) = 0 := h
    omega
  · obtain ⟨iv, _, heq⟩ := List.mem_map.mp h
    exact ⟨iv.1, heq⟩

/-! ### The heap never misses the peak (lower bound) -/

lemma heapStep_cntGT_of_le {t : Int} (H : List Int) {iv : Int × Int}
    (hs : iv.1 ≤ t) :
    cntGT t (heapStep H iv) = (if t < iv.2 then 1 else 0) + cntGT t H := by
  cases H with
  | nil =>
    rw [show heapStep [] iv = heapPush iv.2 [] from rfl,
      cntGT_perm t (heapPush_perm iv.2 []), cntGT_cons]
  | cons m rest =>
    by_cases hm : m ≤ iv.1
    · have hstep : heapStep (m :: rest) iv = heapPush iv.2 rest := by
        simp [heapStep, hm]
      have hmt : ¬ t < m := not_lt.mpr (le_trans hm hs)
      rw [hstep, cntGT_perm t (heapPush_perm iv.2 rest), cntGT_cons,
        cntGT_cons t m rest, if_neg hmt]
      omega
    · have hstep : heapStep (m :: rest) iv = heapPush iv.2 (m :: rest) := by
        simp [heapStep, hm]
      rw [hstep, cntGT_perm t (heapPush_perm iv.2 (m :: rest)), cntGT_cons]

lemma heapFold_cntGT (t : Int) :
    ∀ (L : List (Int × Int)) (H : List Int), (∀ iv ∈ L, iv.1 ≤ t) →
      cntGT t (L.foldl heapStep H) = cntGT t H + cntGT t (L.map Prod.snd) := by
  intro L
  induction L with
  | nil => intro H _; simp [cntGT]
  | cons iv L ih =>
    intro H hb
    have hs : iv.1 ≤ t := hb iv (List.mem_cons_self _ _)
    rw [List.foldl_cons, ih _ (fun iv' h' => hb iv' (List.mem_cons_of_mem _ h')),
      heapStep_cntGT_of_le H hs, List.map_cons, cntGT_cons]
    omega

lemma dropWhile_start_gt {t : Int} :
    ∀ {F : List (Int × Int)}, List.Sorted startLE F →
      ∀ iv ∈ F.dropWhile (fun iv => decide (iv.1 ≤ t)), t < iv.1 := by
  intro F
  induction F with
  | nil => intro _ iv h; simp [List.dropWhile] at h
  | cons a F ih =>
    intro hsor iv hmem
    by_cases ha : a.1 ≤ t
    · rw [List.dropWhile_cons, if_pos (by simpa using ha)] at hmem
      exact ih (List.sorted_cons.mp hsor).2 iv hmem
    · rw [List.dropWhile_cons, if_neg (by simpa using ha)] at hmem
      rcases List.mem_cons.mp hmem with rfl | hmem'
      · exact not_le.mp ha
      · exact lt_of_lt_of_le (not_le.mp ha) ((List.sorted_cons.mp hsor).1 iv hmem')

/-- Every `countAt` value is a lower bound for the final heap size. -/
lemma countAt_le_heapFold {F : List (Int × Int)}
    (hsor : List.Sorted startLE F) (t : Int) :
    countAt F t ≤ (F.foldl heapStep []).length := by
  have hsplit : F.takeWhile (fun iv => decide (iv.1 ≤ t))
      ++ F.dropWhile (fun iv => decide (iv.1 ≤ t)) = F :=
    List.takeWhile_append_dropWhile _ F
  have hdrop : ∀ iv ∈ F.dropWhile (fun iv => decide (iv.1 ≤ t)), t < iv.1 :=
    dropWhile_start_gt hsor
  have h2 : countAt (F.dropWhile (fun iv => decide (iv.1 ≤ t))) t = 0 := by
    unfold countAt
    rw [List.filter_eq_nil_iff.mpr ?_]
    · rfl
    · intro iv hiv
      simp only [activeAt, decide_eq_true_eq, not_and]
      intro h1
      exact absurd h1 (not_le.mpr (hdrop iv hiv))
  have htake : ∀ iv ∈ F.takeWhile (fun iv => decide (iv.1 ≤ t)), iv.1 ≤ t := by
    intro iv hiv
    simpa using List.mem_takeWhile_imp hiv
  have h1 : countAt (F.takeWhile (fun iv => decide (iv.1 ≤ t))) t
      = cntGT t ((F.takeWhile (fun iv => decide (iv.1 ≤ t))).map Prod.snd) :=
    countAt_eq_cntGT_ends htake
  have h3 : countAt F t = countAt (F.takeWhile (fun iv => decide (iv.1 ≤ t))) t := by
    conv_lhs => rw [← hsplit]
    rw [countAt_append, h2]
    omega
  have h4 : cntGT t ((F.takeWhile (fun iv => decide (iv.1 ≤ t))).map Prod.snd)
      = cntGT t ((F.takeWhile (fun iv => decide (iv.1 ≤ t))).foldl heapStep []) := by
    rw [heapFold_cntGT t _ [] htake, show cntGT t [] = 0 from rfl, Nat.zero_add]
  have h5 : cntGT t ((F.takeWhile (fun iv => decide (iv.1 ≤ t))).foldl heapStep [])
      ≤ ((F.takeWhile (fun iv => decide (iv.1 ≤ t))).foldl heapStep []).length :=
    cntGT_le_length _ _
  have h6 : ((F.takeWhile (fun iv => decide (iv.1 ≤ t))).foldl heapStep []).length
      ≤ (F.foldl heapStep []).length := by
    conv_rhs => rw [← hsplit]
    rw [List.foldl_append]
    exact heapFold_length_mono _ _
  omega

/-! ### The heap never exceeds the peak (upper bound) -/

lemma heapStep_cntGT_le (u : Int) (H : List Int) (iv : Int × Int) :
    cntGT u (heapStep H iv) ≤ (if u < iv.2 then 1 else 0) + cntGT u H := by
  cases H with
  | nil =>
    rw [show heapStep [] iv = heapPush iv.2 [] from rfl,
      cntGT_perm u (heapPush_perm iv.2 []), cntGT_cons]
  | cons m rest =>
    by_cases hm : m ≤ iv.1
    · have hstep : heapStep (m :: rest) iv = heapPush iv.2 rest := by
        simp [heapStep, hm]
      rw [hstep, cntGT_perm u (heapPush_perm iv.2 rest), cntGT_cons,
        cntGT_cons u m rest]
      omega
    · have hstep : heapStep (m :: rest) iv = heapPush iv.2 (m :: rest) := by
        simp [heapStep, hm]
      rw [hstep, cntGT_perm u (heapPush_perm iv.2 (m :: rest)), cntGT_cons]

lemma heapFold_le_peak :
    ∀ (L P : List (Int × Int)) (H : List Int),
      List.Sorted startLE (P ++ L) →
      (∀ iv ∈ P ++ L, iv.1 < iv.2) →
      H.Sorted (· ≤ ·) →
      (∀ u, cntGT u H ≤ cntGT u (P.map Prod.snd)) →
      H.length ≤ peakUsage (P ++ L) →
      (L.foldl heapStep H).length ≤ peakUsage (P ++ L) := by
  intro L
  induction L with
  | nil =>
    intro P H _ _ _ _ hlen
    simpa using hlen
  | cons iv L ih =>
    intro P H hsor hstrict hHs hcnt hlen
    obtain ⟨s, e⟩ := iv
    have hassoc : P ++ (s, e) :: L = (P ++ [(s, e)]) ++ L := by simp
    rw [hassoc] at hsor hstrict hlen ⊢
    rw [List.foldl_cons]
    have hPs : ∀ iv' ∈ P, iv'.1 ≤ s := by
      intro iv' hiv'
      have hP' : List.Sorted startLE (P ++ [(s, e)]) :=
        (List.pairwise_append.mp hsor).1
      exact (List.pairwise_append.mp hP').2.2 iv' hiv' (s, e) (List.mem_singleton_self _)
    have hcnt' : ∀ u, cntGT u (heapStep H (s, e)) ≤ cntGT u ((P ++ [(s, e)]).map Prod.snd) := by
      intro u
      have h1 : cntGT u (heapStep H (s, e)) ≤ (if u < e then 1 else 0) + cntGT u H :=
        heapStep_cntGT_le u H (s, e)
      have h2 : cntGT u ((P ++ [(s, e)]).map Prod.snd)
          = cntGT u (P.map Prod.snd) + ((if u < e then 1 else 0) + cntGT u []) := by
        rw [List.map_append, cntGT_append, List.map_cons, cntGT_cons]
        rfl
      have h3 := hcnt u
      have h0 : cntGT u [] = 0 := rfl
      simp only [h2, h0]
      omega
    have hlen' : (heapStep H (s, e)).length ≤ peakUsage ((P ++ [(s, e)]) ++ L) := by
      cases H with
      | cons m rest =>
        by_cases hm : m ≤ s
        · have hstep : heapStep (m :: rest) (s, e) = heapPush e rest := by
            simp [heapStep, hm]
          rw [hstep, heapPush_length]
          simpa using hlen
        · -- no pop: all stored end times exceed `s`, so the heap grows and the
          -- new size is bounded by the number of meetings active at `s`.
          have hstep : heapStep (m :: rest) (s, e) = heapPush e (m :: rest) := by
            simp [heapStep, hm]
          have hallGT : ∀ x ∈ m :: rest, s < x := by
            intro x hx
            rcases List.mem_cons.mp hx with rfl | hx'
            · exact not_le.mp hm
            · exact lt_of_lt_of_le (not_le.mp hm) (List.rel_of_sorted_cons hHs x hx')
          have hful : cntGT s (m :: rest) = (m :: rest).length := cntGT_eq_length s hallGT
          have hPcnt : countAt P s = cntGT s (P.map Prod.snd) := countAt_eq_cntGT_ends hPs
          have hse : s < e := hstrict (s, e) (by simp)
          have hcA : countAt ((P ++ [(s, e)]) ++ L) s
              = countAt P s + ((if s ≤ s ∧ s < e then 1 else 0) + countAt [] s) + countAt L s := by
            rw [countAt_append, countAt_append, countAt_cons]
          have hone : (if s ≤ s ∧ s < e then 1 else 0) = 1 := if_pos ⟨le_refl s, hse⟩
          have hpk : countAt ((P ++ [(s, e)]) ++ L) s ≤ peakUsage ((P ++ [(s, e)]) ++ L) := by
            have hmem : (s, e) ∈ (P ++ [(s, e)]) ++ L := by simp
            exact countAt_fst_le_peak hmem
          have hc0 : countAt ([] : List (Int × Int)) s = 0 := rfl
          have hcs := hcnt s
          rw [hstep, heapPush_length]
          rw [hcA, hone, hc0] at hpk
          omega
      | nil =>
        -- empty heap: the new size 1 is bounded by the count at `s`.
        have hse : s < e := hstrict (s, e) (by simp)
        have hcA : countAt ((P ++ [(s, e)]) ++ L) s
            = countAt P s + ((if s ≤ s ∧ s < e then 1 else 0) + countAt [] s) + countAt L s := by
          rw [countAt_append, countAt_append, countAt_cons]
        have hone : (if s ≤ s ∧ s < e then 1 else 0) = 1 := if_pos ⟨le_refl s, hse⟩
        have hpk : countAt ((P ++ [(s, e)]) ++ L) s ≤ peakUsage ((P ++ [(s, e)]) ++ L) := by
          have hmem : (s, e) ∈ (P ++ [(s, e)]) ++ L := by simp
          exact countAt_fst_le_peak hmem
        have hc0 : countAt ([] : List (Int × Int)) s = 0 := rfl
        have hstep : heapStep [] (s, e) = heapPush e [] := rfl
        rw [hstep, heapPush_length, List.length_nil]
        rw [hcA, hone, hc0] at hpk
        omega
    exact ih (P ++ [(s, e)]) (heapStep H (s, e)) hsor hstrict
      (heapStep_sorted hHs (s, e)) hcnt' hlen'

/-- Heap correctness: for strictly positive-length intervals, the heap
variant computes exactly the peak concurrent usage. -/
lemma heap_eq_peak {I : List (Int × Int)} (hstrict : ∀ iv ∈ I, iv.1 < iv.2) :
    minMeetingRoomHeap I = peakUsage I := by
  cases I with
  | nil => rfl
  | cons iv I' =>
    have hperm : (sortByStart (iv :: I')).Perm (iv :: I') :=
      List.perm_insertionSort _ _
    have hsor : List.Sorted startLE (sortByStart (iv :: I')) :=
      List.sorted_insertionSort _ _
    have hstrictL : ∀ iv' ∈ sortByStart (iv :: I'), iv'.1 < iv'.2 :=
      fun iv' h => hstrict iv' (hperm.subset h)
    have hpeak : peakUsage (sortByStart (iv :: I')) = peakUsage (iv :: I') :=
      peakUsage_perm hperm
    show ((sortByStart (iv :: I')).foldl heapStep []).length = peakUsage (iv :: I')
    rw [← hpeak]
    apply le_antisymm
    · have h := heapFold_le_peak (sortByStart (iv :: I')) [] []
        (by simpa using hsor) (by simpa using hstrictL) (by simp)
        (fun u => le_refl _) (Nat.zero_le _)
      simpa using h
    · apply foldr_max_le
      intro x hx
      obtain ⟨iv', _, rfl⟩ := List.mem_map.mp hx
      exact countAt_le_heapFold hsor iv'.1

/-! ### Adjacent check vs pairwise check -/

/-- Prop version of the pairwise test: `[s1,e1]` and `[s2,e2]` do NOT
overlap when `e1 ≤ s2` or `e2 ≤ s1`. -/
def noOvP (a b : Int × Int) : Prop := a.2 ≤ b.1 ∨ b.2 ≤ a.1

lemma bruteForce_iff_pairwise (I : List (Int × Int)) :
    canAttendMeetingsBruteForce I = true ↔ I.Pairwise noOvP := by
  induction I with
  | nil => simp [canAttendMeetingsBruteForce]
  | cons a rest ih =>
    rw [show canAttendMeetingsBruteForce (a :: rest)
        = (rest.all (fun b => noOverlap a b) && canAttendMeetingsBruteForce rest) from rfl,
      Bool.and_eq_true, List.pairwise_cons, ih]
    constructor
    · rintro ⟨h1, h2⟩
      refine ⟨fun b hb => ?_, h2⟩
      have := List.all_eq_true.mp h1 b hb
      simpa [noOverlap, noOvP] using this
    · rintro ⟨h1, h2⟩
      refine ⟨List.all_eq_true.mpr fun b hb => ?_, h2⟩
      simpa [noOverlap, noOvP] using h1 b hb

lemma adjOk_iff_pairwise :
    ∀ {L : List (Int × Int)}, List.Sorted startLE L → (∀ iv ∈ L, iv.1 < iv.2) →
      (adjOk L = true ↔ L.Pairwise noOvP) := by
  intro L
  induction L with
  | nil => intro _ _; simp [adjOk]
  | cons a L ihL =>
    intro hsor hstrict
    cases L with
    | nil => simp [adjOk]
    | cons b t =>
      have hsorL : List.Sorted startLE (b :: t) := (List.sorted_cons.mp hsor).2
      have hstrictL : ∀ iv ∈ b :: t, iv.1 < iv.2 :=
        fun iv h => hstrict iv (List.mem_cons_of_mem _ h)
      have ih := ihL hsorL hstrictL
      by_cases hover : b.1 < a.2
      · have hne : ¬ noOvP a b := by
          unfold noOvP
          rintro (h | h)
          · exact absurd hover (not_lt.mpr h)
          · have hb : b.1 < b.2 := hstrictL b (List.mem_cons_self _ _)
            have hab : a.1 ≤ b.1 := (List.sorted_cons.mp hsor).1 b (List.mem_cons_self _ _)
            omega
        rw [show adjOk (a :: b :: t) = false from by simp [adjOk, hover]]
        constructor
        · intro h
          exact absurd h (by simp)
        · intro h
          exact absurd ((List.pairwise_cons.mp h).1 b (List.mem_cons_self _ _)) hne
      · rw [show adjOk (a :: b :: t) = adjOk (b :: t) from by simp [adjOk, hover], ih,
          List.pairwise_cons (l := b :: t) (a := a)]
        constructor
        · intro hp
          refine ⟨fun x hx => ?_, hp⟩
          have hax : a.2 ≤ b.1 := not_lt.mp hover
          left
          rcases List.mem_cons.mp hx with rfl | hx'
          · exact hax
          · exact le_trans hax ((List.sorted_cons.mp hsorL).1 x hx')
        · exact fun hp => hp.2

/-- For strictly positive-length intervals, the sorted adjacent-pair check
agrees with the full pairwise check. -/
lemma canAttend_eq_brute {I : List (Int × Int)} (hstrict : ∀ iv ∈ I, iv.1 < iv.2) :
    canAttendMeetings I = canAttendMeetingsBruteForce I := by
  have hperm := List.perm_insertionSort startLE I
  have hsor := List.sorted_insertionSort startLE I
  have hstrictL : ∀ iv ∈ sortByStart I, iv.1 < iv.2 :=
    fun iv h => hstrict iv (hperm.subset h)
  have h1 : canAttendMeetings I = true ↔ (sortByStart I).Pairwise noOvP :=
    adjOk_iff_pairwise hsor hstrictL
  have h2 : (sortByStart I).Pairwise noOvP ↔ I.Pairwise noOvP :=
    hperm.pairwise_iff (fun hab => Or.symm hab)
  have h3 := bruteForce_iff_pairwise I
  have hiff : canAttendMeetings I = true ↔ canAttendMeetingsBruteForce I = true :=
    h1.trans (h2.trans h3.symm)
  cases hca : canAttendMeetings I <;> cases hcb : canAttendMeetingsBruteForce I <;>
    simp_all

/-- The pairwise check only depends on the multiset of intervals. -/
lemma bruteForceAttend_perm {I J : List (Int × Int)} (h : I.Perm J) :
    canAttendMeetingsBruteForce I = canAttendMeetingsBruteForce J := by
  have hiff : canAttendMeetingsBruteForce I = true ↔ canAttendMeetingsBruteForce J = true :=
    (bruteForce_iff_pairwise I).trans
      ((h.pairwise_iff (fun hab => Or.symm hab)).trans (bruteForce_iff_pairwise J).symm)
  cases hca : canAttendMeetingsBruteForce I <;> cases hcb : canAttendMeetingsBruteForce J <;>
    simp_all

/-! ### Single room sufficiency: heap size 1 vs adjacent check -/

lemma heapFold_one_iff :
    ∀ (t : List (Int × Int)) (a : Int × Int),
      ((t.foldl heapStep [a.2]).length = 1) ↔ adjOk (a :: t) = true := by
  intro t
  induction t with
  | nil => intro a; simp [adjOk]
  | cons b t ih =>
    intro a
    by_cases hov : b.1 < a.2
    · have hstep : heapStep [a.2] b = heapPush b.2 [a.2] := by
        simp [heapStep, not_le.mpr hov]
      have hlen2 : (heapPush b.2 [a.2]).length = 2 := by
        rw [heapPush_length, List.length_singleton]
      have hmono := heapFold_length_mono t (heapPush b.2 [a.2])
      constructor
      · intro h
        rw [List.foldl_cons, hstep] at h
        omega
      · intro h
        rw [show adjOk (a :: b :: t) = false from by simp [adjOk, hov]] at h
        exact absurd h (by simp)
    · have hstep : heapStep [a.2] b = [b.2] := by
        simp [heapStep, heapPush, not_lt.mp hov]
      rw [List.foldl_cons, hstep,
        show adjOk (a :: b :: t) = adjOk (b :: t) from by simp [adjOk, hov]]
      exact ih b

/-- On any non-empty input, the adjacent check succeeds exactly when the
heap answer is one room. -/
lemma canAttend_iff_heap_one {I : List (Int × Int)} (hne : I ≠ []) :
    (canAttendMeetings I = true ↔ minMeetingRoomHeap I = 1) := by
  obtain ⟨iv, I', rfl⟩ := List.exists_cons_of_ne_nil hne
  have hperm := List.perm_insertionSort startLE (iv :: I')
  have hLne : sortByStart (iv :: I') ≠ [] := by
    intro h
    have hlen : (sortByStart (iv :: I')).length = (iv :: I').length := hperm.length_eq
    rw [h] at hlen
    simp at hlen
  obtain ⟨a, t, hL⟩ := List.exists_cons_of_ne_nil hLne
  show adjOk (sortByStart (iv :: I')) = true
      ↔ ((sortByStart (iv :: I')).foldl heapStep []).length = 1
  rw [hL, List.foldl_cons, show heapStep [] a = [a.2] from rfl]
  exact (heapFold_one_iff t a).symm

/-! ### The sweep loop on list suffixes -/

/-- List-level view of the sweep loop: the suffixes `ss = S.drop i` and
`es = E.drop j` of the sorted start and end lists stand for the two
pointers; `none` is the `IndexError` on `end[j]`. -/
def sweepGo : Nat → List Int → List Int → Int → Int → Option Int
  | 0, ss, _, res, _ => if ss.isEmpty then some res else none
  | fuel + 1, ss, es, res, count =>
    match ss with
    | [] => some res
    | a :: ss' =>
      match es with
      | [] => none
      | b :: es' =>
        if a < b then sweepGo fuel ss' (b :: es') (max res (count + 1)) (count + 1)
        else sweepGo fuel (a :: ss') es' (max res (count - 1)) (count - 1)

lemma sweepAux_eq_go (S E : List Int) :
    ∀ (fuel i j : Nat) (res count : Int),
      sweepAux S E fuel i j res count = sweepGo fuel (S.drop i) (E.drop j) res count := by
  intro fuel
  induction fuel with
  | zero =>
    intro i j res count
    by_cases hi : i < S.length
    · rw [List.drop_eq_getElem_cons hi]
      show (if i < S.length then none else some res)
          = (if (S[i] :: S.drop (i + 1)).isEmpty then some res else none)
      rw [if_pos hi]
      rfl
    · have hdrop : S.drop i = [] := by
        rw [List.drop_eq_nil_iff_le]
        omega
      rw [hdrop]
      simp [sweepAux, sweepGo, hi]
  | succ fuel ih =>
    intro i j res count
    by_cases hi : i < S.length
    · by_cases hj : j < E.length
      · rw [List.drop_eq_getElem_cons hi, List.drop_eq_getElem_cons hj]
        show (if i < S.length then
            if j < E.length then
              if S.getD i 0 < E.getD j 0 then
                sweepAux S E fuel (i + 1) j (max res (count + 1)) (count + 1)
              else
                sweepAux S E fuel i (j + 1) (max res (count - 1)) (count - 1)
            else none
          else some res)
          = if S[i] < E[j] then
              sweepGo fuel (S.drop (i+1)) (E[j] :: E.drop (j+1)) (max res (count + 1)) (count + 1)
            else
              sweepGo fuel (S[i] :: S.drop (i+1)) (E.drop (j+1)) (max res (count - 1)) (count - 1)
        rw [if_pos hi, if_pos hj, List.getD_eq_getElem S 0 hi, List.getD_eq_getElem E 0 hj]
        by_cases hcmp : S[i] < E[j]
        · rw [if_pos hcmp, if_pos hcmp, ih (i + 1) j, List.drop_eq_getElem_cons hj]
        · rw [if_neg hcmp, if_neg hcmp, ih i (j + 1), List.drop_eq_getElem_cons hi]
      · have hdropE : E.drop j = [] := by
          rw [List.drop_eq_nil_iff_le]
          omega
        rw [List.drop_eq_getElem_cons hi, hdropE]
        show (if i < S.length then
            if j < E.length then _ else none
          else some res) = (none : Option Int)
        rw [if_pos hi, if_neg hj]
    · have hdropS : S.drop i = [] := by
        rw [List.drop_eq_nil_iff_le]
        omega
      rw [hdropS]
      show (if i < S.length then _ else some res) = some res
      rw [if_neg hi]

/-! ### Sweep correctness invariant -/

/-- Count of elements at most `u` in a multiset. -/
def mLE (u : Int) (m : Multiset Int) : Nat :=
  (m.filter (fun x => x ≤ u)).card

/-- The sweep's running count right after consuming the last copy of start
value `a`: the number of starts at most `a` minus the number of ends at
most `a`. -/
def gval (Sm Em : Multiset Int) (a : Int) : Int :=
  (mLE a Sm : Int) - (mLE a Em : Int)

lemma foldr_maxg_init (g : Int → Int) :
    ∀ (l : List Int) (x y : Int),
      l.foldr (fun a r => max (g a) r) (max x y)
        = max x (l.foldr (fun a r => max (g a) r) y) := by
  intro l
  induction l with
  | nil => intro x y; rfl
  | cons h t ih =>
    intro x y
    rw [List.foldr_cons, List.foldr_cons, ih, max_left_comm]

lemma foldr_maxg_mem_ge (g : Int → Int) :
    ∀ {l : List Int} {a : Int}, a ∈ l →
      ∀ y, g a ≤ l.foldr (fun x r => max (g x) r) y := by
  intro l
  induction l with
  | nil => intro a h; simp at h
  | cons b t ih =>
    intro a h y
    rcases List.mem_cons.mp h with rfl | h'
    · exact le_max_left _ _
    · exact le_trans (ih h' y) (le_max_right _ _)

lemma sweepGo_spec :
    ∀ (fuel : Nat) (ss es : List Int) (cs ce : Multiset Int) (res count : Int)
      (Sm Em : Multiset Int),
      ss.length + es.length ≤ fuel →
      List.Sorted (· ≤ ·) ss → List.Sorted (· ≤ ·) es →
      (∀ x ∈ cs, ∀ y ∈ ss, x ≤ y) →
      (∀ x ∈ ce, ∀ y ∈ ss, x ≤ y) →
      (∀ a ∈ ss, ∃ e ∈ es, a < e) →
      count = (Multiset.card cs : Int) - (Multiset.card ce : Int) →
      count ≤ res →
      Sm = cs + (ss : Multiset Int) →
      Em = ce + (es : Multiset Int) →
      sweepGo fuel ss es res count
        = some (ss.foldr (fun a r => max (gval Sm Em a) r) res) := by
  intro fuel
  induction fuel with
  | zero =>
    intro ss es cs ce res count Sm Em hfuel _ _ _ _ _ _ _ _ _
    cases ss with
    | nil => rfl
    | cons a ss' =>
      rw [List.length_cons] at hfuel
      omega
  | succ fuel ih =>
    intro ss es cs ce res count Sm Em hfuel hsS hsE hcs hce hpair hcount hres hSm hEm
    cases ss with
    | nil => rfl
    | cons a ss' =>
      cases es with
      | nil =>
        obtain ⟨e, he, _⟩ := hpair a (List.mem_cons_self _ _)
        simp at he
      | cons b es' =>
        show (if a < b then sweepGo fuel ss' (b :: es') (max res (count + 1)) (count + 1)
            else sweepGo fuel (a :: ss') es' (max res (count - 1)) (count - 1))
          = some ((a :: ss').foldr (fun x r => max (gval Sm Em x) r) res)
        by_cases hab : a < b
        · -- start event: consume `a`, `count` rises by one.
          rw [if_pos hab]
          have hfuel' : ss'.length + (b :: es').length ≤ fuel := by
            simp only [List.length_cons] at hfuel ⊢
            omega
          have hsS' : List.Sorted (· ≤ ·) ss' := (List.sorted_cons.mp hsS).2
          have hcs' : ∀ x ∈ cs + ({a} : Multiset Int), ∀ y ∈ ss', x ≤ y := by
            intro x hx y hy
            rcases Multiset.mem_add.mp hx with hx' | hx'
            · exact hcs x hx' y (List.mem_cons_of_mem _ hy)
            · rw [Multiset.mem_singleton.mp hx']
              exact (List.sorted_cons.mp hsS).1 y hy
          have hce' : ∀ x ∈ ce, ∀ y ∈ ss', x ≤ y :=
            fun x hx y hy => hce x hx y (List.mem_cons_of_mem _ hy)
          have hpair' : ∀ a' ∈ ss', ∃ e ∈ (b :: es' : List Int), a' < e :=
            fun a' ha' => hpair a' (List.mem_cons_of_mem _ ha')
          have hcount' : count + 1
              = (Multiset.card (cs + ({a} : Multiset Int)) : Int) - (Multiset.card ce : Int) := by
            rw [Multiset.card_add, Multiset.card_singleton]
            push_cast
            omega
          have hSm' : Sm = (cs + ({a} : Multiset Int)) + (ss' : Multiset Int) := by
            rw [hSm, ← Multiset.cons_coe, ← Multiset.singleton_add, add_assoc]
          have ihcall := ih ss' (b :: es') (cs + {a}) ce (max res (count + 1)) (count + 1)
            Sm Em hfuel' hsS' hsE hcs' hce' hpair' hcount' (le_max_right _ _) hSm' hEm
          rw [ihcall]
          -- now the two folds agree
          have hcsa : ∀ x ∈ cs, x ≤ a := fun x hx => hcs x hx a (List.mem_cons_self _ _)
          have hcea : ∀ x ∈ ce, x ≤ a := fun x hx => hce x hx a (List.mem_cons_self _ _)
          have hesgt : ∀ y ∈ (b :: es' : List Int), a < y := by
            intro y hy
            rcases List.mem_cons.mp hy with rfl | hy'
            · exact hab
            · exact lt_of_lt_of_le hab ((List.sorted_cons.mp hsE).1 y hy')
          have hSfil : Multiset.filter (fun x => x ≤ a) Sm
              = cs + Multiset.filter (fun x => x ≤ a) ((a :: ss' : List Int) : Multiset Int) := by
            rw [hSm, Multiset.filter_add, Multiset.filter_eq_self.mpr hcsa]
          have hEfil : Multiset.filter (fun x => x ≤ a) Em = ce := by
            rw [hEm, Multiset.filter_add, Multiset.filter_eq_self.mpr hcea,
              Multiset.filter_eq_nil.mpr
                (fun y hy => not_le.mpr (hesgt y (Multiset.mem_coe.mp hy))), add_zero]
          have hml : mLE a Sm = Multiset.card cs + (1 + cntLE a ss') := by
            unfold mLE
            rw [hSfil, Multiset.card_add]
            congr 1
            rw [Multiset.filter_coe, Multiset.coe_card]
            have hc : cntLE a (a :: ss') = 1 + cntLE a ss' := by
              rw [cntLE_cons, if_pos (le_refl a)]
            exact hc
          have hme : mLE a Em = Multiset.card ce := by
            unfold mLE
            rw [hEfil]
          have hga : gval Sm Em a = count + 1 + (cntLE a ss' : Int) := by
            unfold gval
            rw [hml, hme, hcount]
            push_cast
            ring
          congr 1
          rw [List.foldr_cons, max_comm res (count + 1),
            foldr_maxg_init (gval Sm Em) ss' (count + 1) res]
          by_cases hk : cntLE a ss' = 0
          · rw [hga, hk]
            norm_num
          · obtain ⟨x, hx, hxa⟩ := (exists_le_iff_cntLE_pos a ss').mpr (Nat.pos_of_ne_zero hk)
            have hax : a ≤ x := (List.sorted_cons.mp hsS).1 x hx
            have hamem : a ∈ ss' := (le_antisymm hxa hax) ▸ hx
            have hgle : gval Sm Em a ≤ ss'.foldr (fun x r => max (gval Sm Em x) r) res :=
              foldr_maxg_mem_ge _ hamem res
            have hc1 : count + 1 ≤ gval Sm Em a := by
              have hnn : (0 : Int) ≤ (cntLE a ss' : Int) := Int.natCast_nonneg _
              omega
            rw [max_eq_right (le_trans hc1 hgle), max_eq_right hgle]
        · -- end event: consume `b`, `count` drops by one, `res` is unchanged.
          rw [if_neg hab]
          have hba : b ≤ a := not_lt.mp hab
          have hresle : count - 1 ≤ res := by omega
          rw [max_eq_left hresle]
          have hfuel' : (a :: ss').length + es'.length ≤ fuel := by
            simp only [List.length_cons] at hfuel ⊢
            omega
          have hsE' : List.Sorted (· ≤ ·) es' := (List.sorted_cons.mp hsE).2
          have hce' : ∀ x ∈ ce + ({b} : Multiset Int), ∀ y ∈ (a :: ss' : List Int), x ≤ y := by
            intro x hx y hy
            rcases Multiset.mem_add.mp hx with hx' | hx'
            · exact hce x hx' y hy
            · rw [Multiset.mem_singleton.mp hx']
              rcases List.mem_cons.mp hy with rfl | hy'
              · exact hba
              · exact le_trans hba ((List.sorted_cons.mp hsS).1 y hy')
          have hpair' : ∀ a' ∈ (a :: ss' : List Int), ∃ e ∈ es', a' < e := by
            intro a' ha'
            obtain ⟨e, he, hlt⟩ := hpair a' ha'
            have haa' : a ≤ a' := by
              rcases List.mem_cons.mp ha' with rfl | h'
              · exact le_refl _
              · exact (List.sorted_cons.mp hsS).1 a' h'
            rcases List.mem_cons.mp he with rfl | he'
            · omega
            · exact ⟨e, he', hlt⟩
          have hcount' : count - 1
              = (Multiset.card cs : Int) - (Multiset.card (ce + ({b} : Multiset Int)) : Int) := by
            rw [Multiset.card_add, Multiset.card_singleton]
            push_cast
            omega
          have hEm' : Em = (ce + ({b} : Multiset Int)) + (es' : Multiset Int) := by
            rw [hEm, ← Multiset.cons_coe, ← Multiset.singleton_add, add_assoc]
          exact ih (a :: ss') es' cs (ce + {b}) res (count - 1)
            Sm Em hfuel' hsS hsE' hcs hce' hpair' hcount' hresle hSm hEm'

lemma gval_eq_countAt {I : List (Int × Int)} (hstrict : ∀ iv ∈ I, iv.1 < iv.2) (a : Int) :
    gval (↑(I.map Prod.fst)) (↑(I.map Prod.snd)) a = ((countAt I a : Nat) : Int) := by
  have key : ∀ (J : List (Int × Int)), (∀ iv ∈ J, iv.1 < iv.2) →
      cntLE a (J.map Prod.fst) = countAt J a + cntLE a (J.map Prod.snd) := by
    intro J
    induction J with
    | nil => intro _; rfl
    | cons iv J ihJ =>
      intro hstr
      have hiv : iv.1 < iv.2 := hstr iv (List.mem_cons_self _ _)
      have ih' := ihJ (fun x hx => hstr x (List.mem_cons_of_mem _ hx))
      rw [List.map_cons, List.map_cons, cntLE_cons, cntLE_cons, countAt_cons]
      by_cases h2 : iv.2 ≤ a
      · have h1 : iv.1 ≤ a := le_of_lt (lt_of_lt_of_le hiv h2)
        rw [if_pos h1, if_pos h2, if_neg (fun hc => (not_lt.mpr h2) hc.2)]
        omega
      · by_cases h1 : iv.1 ≤ a
        · rw [if_pos h1, if_neg h2, if_pos ⟨h1, not_le.mp h2⟩]
          omega
        · rw [if_neg h1, if_neg h2, if_neg (fun hc => h1 hc.1)]
          omega
  have hSc : mLE a ↑(I.map Prod.fst) = cntLE a (I.map Prod.fst) := by
    unfold mLE
    rw [Multiset.filter_coe, Multiset.coe_card]
    rfl
  have hEc : mLE a ↑(I.map Prod.snd) = cntLE a (I.map Prod.snd) := by
    unfold mLE
    rw [Multiset.filter_coe, Multiset.coe_card]
    rfl
  unfold gval
  rw [hSc, hEc, key I hstrict]
  push_cast
  ring

lemma foldr_maxg_perm (g : Int → Int) {l₁ l₂ : List Int} (h : l₁.Perm l₂) (y : Int) :
    l₁.foldr (fun a r => max (g a) r) y = l₂.foldr (fun a r => max (g a) r) y := by
  induction h with
  | nil => rfl
  | cons x _ ih => simp only [List.foldr_cons, ih]
  | swap x z l => simp only [List.foldr_cons]; exact max_left_comm _ _ _
  | trans _ _ ih₁ ih₂ => rw [ih₁, ih₂]

lemma foldr_max_cast {α : Type} (g : α → Nat) :
    ∀ l : List α, l.foldr (fun a r => max ((g a : Int)) r) 0
      = ((l.foldr (fun a r => max (g a) r) 0 : Nat) : Int) := by
  intro l
  induction l with
  | nil => simp
  | cons x l ih => simp only [List.foldr_cons, ih, Nat.cast_max]

/-- Sweep correctness: for strictly positive-length intervals the sweep
returns exactly the peak concurrent usage (in particular, there is no
out-of-bounds access). -/
lemma sweep_eq_peak {I : List (Int × Int)} (hstrict : ∀ iv ∈ I, iv.1 < iv.2) :
    minMeetingRooms I = some ((peakUsage I : Nat) : Int) := by
  show sweepAux (sortInts (I.map Prod.fst)) (sortInts (I.map Prod.snd))
      ((sortInts (I.map Prod.fst)).length + (sortInts (I.map Prod.snd)).length + 1)
      0 0 0 0 = some ((peakUsage I : Nat) : Int)
  rw [sweepAux_eq_go, List.drop_zero, List.drop_zero]
  have hpermS : (sortInts (I.map Prod.fst)).Perm (I.map Prod.fst) :=
    List.perm_insertionSort _ _
  have hpermE : (sortInts (I.map Prod.snd)).Perm (I.map Prod.snd) :=
    List.perm_insertionSort _ _
  have hsorS : List.Sorted (· ≤ ·) (sortInts (I.map Prod.fst)) :=
    List.sorted_insertionSort _ _
  have hsorE : List.Sorted (· ≤ ·) (sortInts (I.map Prod.snd)) :=
    List.sorted_insertionSort _ _
  have hpair : ∀ a ∈ sortInts (I.map Prod.fst), ∃ e ∈ sortInts (I.map Prod.snd), a < e := by
    intro a ha
    obtain ⟨iv, hiv, rfl⟩ := List.mem_map.mp (hpermS.subset ha)
    exact ⟨iv.2, hpermE.symm.subset (List.mem_map.mpr ⟨iv, hiv, rfl⟩), hstrict iv hiv⟩
  have hcoeS : ((sortInts (I.map Prod.fst)) : Multiset Int) = ↑(I.map Prod.fst) :=
    Multiset.coe_eq_coe.mpr hpermS
  have hcoeE : ((sortInts (I.map Prod.snd)) : Multiset Int) = ↑(I.map Prod.snd) :=
    Multiset.coe_eq_coe.mpr hpermE
  have hmain := sweepGo_spec
    ((sortInts (I.map Prod.fst)).length + (sortInts (I.map Prod.snd)).length + 1)
    (sortInts (I.map Prod.fst)) (sortInts (I.map Prod.snd)) 0 0 0 0
    (↑(I.map Prod.fst)) (↑(I.map Prod.snd))
    (by omega) hsorS hsorE (by simp) (by simp) hpair (by simp) (le_refl 0)
    (by rw [zero_add, hcoeS]) (by rw [zero_add, hcoeE])
  rw [hmain]
  congr 1
  have hfun : (fun (a : Int) (r : Int) =>
        max (gval (↑(I.map Prod.fst)) (↑(I.map Prod.snd)) a) r)
      = fun a r => max (((countAt I a : Nat) : Int)) r := by
    funext a r
    rw [gval_eq_countAt hstrict a]
  rw [hfun]
  calc (sortInts (I.map Prod.fst)).foldr (fun a r => max (((countAt I a : Nat) : Int)) r) 0
      = (I.map Prod.fst).foldr (fun a r => max (((countAt I a : Nat) : Int)) r) 0 :=
        foldr_maxg_perm (fun a => ((countAt I a : Nat) : Int)) hpermS 0
    _ = I.foldr (fun iv r => max (((countAt I iv.1 : Nat) : Int)) r) 0 :=
        List.foldr_map _ _ _ _
    _ = ((I.foldr (fun iv r => max (countAt I iv.1) r) 0 : Nat) : Int) :=
        foldr_max_cast (fun iv => countAt I iv.1) I
    _ = ((peakUsage I : Nat) : Int) := by
        unfold peakUsage
        rw [List.foldr_map]

/-! ### Claim theorems -/

/-- Claim C1, counterexample: on the valid non-empty input `[[1,1]]`
(start ≤ end holds), the brute force and the heap return 1 while the sweep
runs out of bounds (`end[1]` on a one-element list, an `IndexError`), so
the three operations do not agree as the claim states. -/
theorem c1_counterexample :
    minMeetingRoomsBruteForce [((1 : Int), (1 : Int))] = 1 ∧
    minMeetingRoomHeap [((1 : Int), (1 : Int))] = 1 ∧
    minMeetingRooms [((1 : Int), (1 : Int))] = none := by
  decide

/-- Claim C1 (amended): for every non-empty sequence of intervals in which
every interval satisfies start < end strictly, the three room-counting
operations agree: the brute force equals the heap, and the sweep returns
exactly that number. -/
theorem c1_amended_agreement (I : List (Int × Int)) (hne : I ≠ [])
    (hstrict : ∀ iv ∈ I, iv.1 < iv.2) :
    minMeetingRoomsBruteForce I = minMeetingRoomHeap I ∧
    minMeetingRooms I = some ((minMeetingRoomHeap I : Nat) : Int) := by
  refine ⟨brute_eq_heap I, ?_⟩
  rw [heap_eq_peak hstrict]
  exact sweep_eq_peak hstrict

/-- Claim C1, witness: the amended agreement at the source's own example
`[[0,30],[5,10],[15,20]]`. -/
theorem c1_witness :
    minMeetingRoomsBruteForce [((0 : Int), 30), (5, 10), (15, 20)]
        = minMeetingRoomHeap [((0 : Int), 30), (5, 10), (15, 20)] ∧
    minMeetingRooms [((0 : Int), 30), (5, 10), (15, 20)]
        = some ((minMeetingRoomHeap [((0 : Int), 30), (5, 10), (15, 20)] : Nat) : Int) :=
  c1_amended_agreement _ (by decide) (by decide)

/-- Claim C2, counterexample: the zero-length interval `[[2,2]]` satisfies
start ≤ end, yet the sweep's `end[j]` access goes out of bounds
(`IndexError`), so the sweep is not total on valid input as claimed. -/
theorem c2_counterexample :
    minMeetingRooms [((2 : Int), (2 : Int))] = none := by
  decide

/-- Claim C2 (amended): for every sequence of intervals in which every
interval satisfies start < end strictly, the sweep returns a value (its
index accesses stay in bounds); the other four operations are total by
construction. -/
theorem c2_amended_total (I : List (Int × Int))
    (hstrict : ∀ iv ∈ I, iv.1 < iv.2) :
    ∃ r : Int, minMeetingRooms I = some r :=
  ⟨_, sweep_eq_peak hstrict⟩

/-- Claim C2, witness: the amended totality at `[[1,5],[5,10]]`. -/
theorem c2_witness :
    ∃ r : Int, minMeetingRooms [((1 : Int), 5), (5, 10)] = some r :=
  c2_amended_total _ (by decide)

/-- Claim C3, counterexample: on the valid input `[[1,1]]` the heap answers
1, but the peak concurrent usage under the `[s, e)` reading is 0 (no time
`t` satisfies `1 ≤ t < 1`; `countAt_le_peakUsage` bounds `countAt` at every
`t` by `peakUsage`), so the heap does not equal the peak as claimed. -/
theorem c3_counterexample :
    minMeetingRoomHeap [((1 : Int), (1 : Int))] = 1 ∧
    peakUsage [((1 : Int), (1 : Int))] = 0 := by
  decide

/-- Claim C3 (amended): for every sequence of intervals with start < end
strictly, the heap variant returns exactly the peak concurrent usage:
`peakUsage`, which dominates `countAt` at every time `t` and is attained
at some `t` whenever the input is non-empty. -/
theorem c3_amended_heap_peak (I : List (Int × Int))
    (hstrict : ∀ iv ∈ I, iv.1 < iv.2) :
    minMeetingRoomHeap I = peakUsage I ∧
    (∀ t, countAt I t ≤ peakUsage I) ∧
    (I ≠ [] → ∃ t, countAt I t = peakUsage I) :=
  ⟨heap_eq_peak hstrict, fun t => countAt_le_peakUsage I t,
    fun hne => peak_achieved hstrict hne⟩

/-- Claim C3, witness: the amended statement at `[[0,30],[5,10],[15,20]]`
with the bound instantiated at `t = 7`. -/
theorem c3_witness :
    minMeetingRoomHeap [((0 : Int), 30), (5, 10), (15, 20)]
        = peakUsage [((0 : Int), 30), (5, 10), (15, 20)] ∧
    countAt [((0 : Int), 30), (5, 10), (15, 20)] 7
        ≤ peakUsage [((0 : Int), 30), (5, 10), (15, 20)] :=
  ⟨(c3_amended_heap_peak _ (by decide)).1, (c3_amended_heap_peak _ (by decide)).2.1 7⟩

/-- Claim C4, counterexample: on the valid input `[[1,2],[1,1]]` the sorted
adjacent-pair check reports an overlap (`false`) while the full pairwise
check reports none (`true`): a zero-length interval tied on start breaks
the equivalence. -/
theorem c4_counterexample :
    canAttendMeetings [((1 : Int), 2), (1, 1)] = false ∧
    canAttendMeetingsBruteForce [((1 : Int), 2), (1, 1)] = true := by
  decide

/-- Claim C4 (amended): for every sequence of intervals with start < end
strictly, the sorted adjacent-pair check returns the same boolean as the
full pairwise check. -/
theorem c4_amended_adjacent_eq_pairwise (I : List (Int × Int))
    (hstrict : ∀ iv ∈ I, iv.1 < iv.2) :
    canAttendMeetings I = canAttendMeetingsBruteForce I :=
  canAttend_eq_brute hstrict

/-- Claim C4, witness: the amended equivalence at `[[0,30],[5,10],[15,20]]`. -/
theorem c4_witness :
    canAttendMeetings [((0 : Int), 30), (5, 10), (15, 20)]
        = canAttendMeetingsBruteForce [((0 : Int), 30), (5, 10), (15, 20)] :=
  c4_amended_adjacent_eq_pairwise _ (by decide)

/-- Claim C5, counterexample: `minMeetingRoomsBruteForce` runs
`intervals.sort(...)` on the caller's list in place, so after a call on
`[[7,10],[2,4]]` the caller's list is `[[2,4],[7,10]]`, not the original
order: the operations are not pure with respect to the caller's data. -/
theorem c5_counterexample :
    minMeetingRoomsBruteForceCallerAfter [((7 : Int), 10), (2, 4)]
      ≠ [((7 : Int), 10), (2, 4)] := by
  decide

/-- Claim C5 (amended): `minMeetingRooms` and `canAttendMeetingsBruteForce`
leave the caller's list unchanged; `minMeetingRoomsBruteForce`,
`minMeetingRoomHeap` and `canAttendMeetings` sort it in place by start, so
the caller keeps a permutation of the original elements (the stable sort
by start), unchanged exactly when the list was already sorted — as the
idempotence conjunct states. -/
theorem c5_amended_mutation (I : List (Int × Int)) :
    (minMeetingRoomsBruteForceCallerAfter I).Perm I ∧
    (minMeetingRoomHeapCallerAfter I).Perm I ∧
    (canAttendMeetingsCallerAfter I).Perm I ∧
    minMeetingRoomsCallerAfter I = I ∧
    canAttendMeetingsBruteForceCallerAfter I = I ∧
    canAttendMeetingsCallerAfter (canAttendMeetingsCallerAfter I)
      = canAttendMeetingsCallerAfter I := by
  refine ⟨?_, ?_, List.perm_insertionSort _ _, rfl, rfl, ?_⟩
  · cases I with
    | nil => exact List.Perm.refl _
    | cons iv I' => exact List.perm_insertionSort _ _
  · cases I with
    | nil => exact List.Perm.refl _
    | cons iv I' => exact List.perm_insertionSort _ _
  · show sortByStart (sortByStart I) = sortByStart I
    exact List.Sorted.insertionSort_eq (List.sorted_insertionSort _ _)

/-- Claim C6, counterexample: `[[1,1],[1,2]]` and its permutation
`[[1,2],[1,1]]` are valid (start ≤ end), yet the heap answers 1 on the
first and 2 on the second: shuffling the input changes the result. -/
theorem c6_counterexample :
    ([((1 : Int), (1 : Int)), (1, 2)] : List (Int × Int)).Perm [((1 : Int), 2), (1, 1)] ∧
    minMeetingRoomHeap [((1 : Int), (1 : Int)), (1, 2)] = 1 ∧
    minMeetingRoomHeap [((1 : Int), 2), (1, 1)] = 2 := by
  decide

/-- Claim C6 (amended): for sequences of intervals with start < end
strictly, every one of the five operations is permutation invariant. -/
theorem c6_amended_perm_invariance (I J : List (Int × Int)) (hp : I.Perm J)
    (hstrict : ∀ iv ∈ I, iv.1 < iv.2) :
    minMeetingRoomsBruteForce I = minMeetingRoomsBruteForce J ∧
    minMeetingRoomHeap I = minMeetingRoomHeap J ∧
    minMeetingRooms I = minMeetingRooms J ∧
    canAttendMeetings I = canAttendMeetings J ∧
    canAttendMeetingsBruteForce I = canAttendMeetingsBruteForce J := by
  have hstrictJ : ∀ iv ∈ J, iv.1 < iv.2 := fun iv h => hstrict iv (hp.symm.subset h)
  have hpeak : peakUsage I = peakUsage J := peakUsage_perm hp
  have hheap : minMeetingRoomHeap I = minMeetingRoomHeap J := by
    rw [heap_eq_peak hstrict, heap_eq_peak hstrictJ, hpeak]
  refine ⟨?_, hheap, ?_, ?_, bruteForceAttend_perm hp⟩
  · rw [brute_eq_heap, brute_eq_heap, hheap]
  · rw [sweep_eq_peak hstrict, sweep_eq_peak hstrictJ, hpeak]
  · rw [canAttend_eq_brute hstrict, canAttend_eq_brute hstrictJ]
    exact bruteForceAttend_perm hp

/-- Claim C6, witness: the amended invariance at `[[1,3],[2,4]]` and its
reversal. -/
theorem c6_witness :
    minMeetingRoomsBruteForce [((1 : Int), 3), (2, 4)]
        = minMeetingRoomsBruteForce [((2 : Int), 4), (1, 3)] ∧
    minMeetingRoomHeap [((1 : Int), 3), (2, 4)]
        = minMeetingRoomHeap [((2 : Int), 4), (1, 3)] ∧
    minMeetingRooms [((1 : Int), 3), (2, 4)]
        = minMeetingRooms [((2 : Int), 4), (1, 3)] ∧
    canAttendMeetings [((1 : Int), 3), (2, 4)]
        = canAttendMeetings [((2 : Int), 4), (1, 3)] ∧
    canAttendMeetingsBruteForce [((1 : Int), 3), (2, 4)]
        = canAttendMeetingsBruteForce [((2 : Int), 4), (1, 3)] :=
  c6_amended_perm_invariance _ _ (by decide) (by decide)

/-- Claim C7: for every non-empty valid sequence of intervals
(start ≤ end each), the adjacent check `canAttendMeetings` succeeds exactly
when `minMeetingRoomHeap` answers one room. -/
theorem c7_attend_iff_one_room (I : List (Int × Int)) (hne : I ≠ [])
    (hvalid : ∀ iv ∈ I, iv.1 ≤ iv.2) :
    (canAttendMeetings I = true ↔ minMeetingRoomHeap I = 1) :=
  canAttend_iff_heap_one hne

/-- Claim C7, witness: the equivalence at the source's example
`[[7,10],[2,4]]`. -/
theorem c7_witness :
    (canAttendMeetings [((7 : Int), 10), (2, 4)] = true
      ↔ minMeetingRoomHeap [((7 : Int), 10), (2, 4)] = 1) :=
  c7_attend_iff_one_room _ (by decide) (by decide)

/-- Claim C8: boundary-touching intervals `[[1,5],[5,10]]` need one room
under all three counters, the sweep included, and can all be attended. -/
theorem c8_boundary_touch :
    minMeetingRoomsBruteForce [((1 : Int), 5), (5, 10)] = 1 ∧
    minMeetingRoomHeap [((1 : Int), 5), (5, 10)] = 1 ∧
    minMeetingRooms [((1 : Int), 5), (5, 10)] = some 1 ∧
    canAttendMeetings [((1 : Int), 5), (5, 10)] = true := by
  decide

/-- Claim C9: on the empty input all room counters return 0 (the sweep
returning normally with `some 0`), and both attendance checks return
`true`. -/
theorem c9_empty_input :
    minMeetingRoomsBruteForce ([] : List (Int × Int)) = 0 ∧
    minMeetingRoomHeap ([] : List (Int × Int)) = 0 ∧
    minMeetingRooms ([] : List (Int × Int)) = some 0 ∧
    canAttendMeetings ([] : List (Int × Int)) = true ∧
    canAttendMeetingsBruteForce ([] : List (Int × Int)) = true := by
  decide

/-- Claim C10: for every sequence of intervals with start ≤ end each —
zero-length intervals included, in any input order — the first-fit brute
force and the min-heap variant agree. -/
theorem c10_firstFit_eq_heap (I : List (Int × Int))
    (hvalid : ∀ iv ∈ I, iv.1 ≤ iv.2) :
    minMeetingRoomsBruteForce I = minMeetingRoomHeap I :=
  brute_eq_heap I

/-- Claim C10, witness: the agreement at a valid input containing a
zero-length interval. -/
theorem c10_witness :
    minMeetingRoomsBruteForce [((1 : Int), (1 : Int)), (1, 2)]
      = minMeetingRoomHeap [((1 : Int), (1 : Int)), (1, 2)] :=
  c10_firstFit_eq_heap _ (by decide)

end MeetingRooms
